import Mathlib

/-!
Verification of the tiddlyverse storage core: a shallow embedding of the
record codec (`tiddler.go`) and the store/index/cache layer (the unnamed
store source file) of the repository, with theorems checking the
specification's claims about them.

Modelling conventions:
* Byte streams and strings are both modelled as `List Char` (`Str`); a
  `Char` stands for one byte.  Go's `map[string]interface{}` records are
  modelled as association lists with at most one binding per key, compared
  extensionally through `alookup`.
* Go code that can panic (slice out of range, failed type assertion) is
  modelled with `Option`/a `panicked` outcome: `none`/`.panicked` means the
  Go code panics, `some`/other constructors are the values actually
  returned.
* Loops reading from a `bufio.Reader` are modelled with a fuel parameter
  (`readAuxF` etc.); the fuel is always instantiated so that it provably
  suffices, and fuel-irrelevance lemmas recover the natural recursion
  equations.
-/

namespace Tiddlyverse

abbrev Str := List Char

/-- The character class of Go's regexp `\s` / `strings.TrimSpace`
(ASCII whitespace, sufficient for the byte-level claims here). -/
def isSpaceB (c : Char) : Bool :=
  c = ' ' || c = '\t' || c = '\n' || c = '\r' || c = '\x0b' || c = '\x0c'

/-- Model of `reWhitespaceOnly` = `^\s*$`: the whole line is whitespace. -/
def isWSOnly (l : Str) : Bool := l.all isSpaceB

/-- Drop trailing whitespace. -/
def dropTrail (l : Str) : Str := (l.reverse.dropWhile isSpaceB).reverse

/-- Model of `strings.TrimSpace`. -/
def trimWS (l : Str) : Str := dropTrail (l.dropWhile isSpaceB)

/-- One `bufio.Reader.ReadString('\n')` call: returns the first line
(including its `'\n'` when present) and the remaining stream.  An empty
remainder together with a line not ending in `'\n'` corresponds to
`io.EOF`. -/
def takeLine : Str → Str × Str
  | [] => ([], [])
  | c :: cs =>
    if c = '\n' then ([c], cs)
    else (c :: (takeLine cs).1, (takeLine cs).2)

/-- Model of `strings.Index line ":"` followed by the two slicings
`line[:idx]`/`line[idx+1:]`: `none` when the line holds no colon (in Go the
index is `-1` and `line[:-1]` panics). -/
def colonSplit : Str → Option (Str × Str)
  | [] => none
  | c :: cs =>
    if c = ':' then some ([], cs)
    else (colonSplit cs).map (fun p => (c :: p.1, p.2))

/-- Field values of a record: Go's `interface{}` restricted to the shapes
the program actually stores (string, raw byte slice, string array, nested
string map). -/
inductive TValue where
  | str (s : Str)
  | bytes (b : Str)
  | arr (xs : List Str)
  | fmap (m : List (Str × Str))
deriving DecidableEq, Repr

/-- A record ("tiddler"): a Go map, modelled as an association list with at
most one binding per key. -/
abbrev Tiddler := List (Str × TValue)

/-- Go map read `m[k]` (first binding wins; lists built by `mapSet` have
unique keys). -/
def alookup (k : Str) : List (Str × α) → Option α
  | [] => none
  | (k', v) :: rest => if k' = k then some v else alookup k rest

/-- Go map write `m[k] = v`: replace the binding in place or append. -/
def mapSet (t : List (Str × α)) (k : Str) (v : α) : List (Str × α) :=
  match t with
  | [] => [(k, v)]
  | (k', v') :: rest =>
    if k' = k then (k, v) :: rest else (k', v') :: mapSet rest k v

/-- Go map delete `delete(m, k)`. -/
def mapDel (t : List (Str × α)) (k : Str) : List (Str × α) :=
  match t with
  | [] => []
  | (k', v') :: rest =>
    if k' = k then mapDel rest k else (k', v') :: mapDel rest k

def textKey : Str := "text".data
def titleKey : Str := "title".data
def revisionKey : Str := "revision".data
def fieldsKey : Str := "fields".data
def typeKey : Str := "type".data

/-- The header-scanning loop of `TiddlerFile.Read`, with fuel.  Each
iteration reads one line; a whitespace-only line ends the headers and the
raw remainder becomes `text` (only when non-empty); a header line is split
at its first colon (`none` = the Go out-of-range panic when there is no
colon); reaching the end of the stream after a header line ends the loop. -/
def readAuxF : Nat → Str → Tiddler → Option Tiddler
  | 0, _, _ => none
  | fuel + 1, s, acc =>
    if isWSOnly (takeLine s).1 then
      some (if (takeLine s).2.isEmpty then acc
            else mapSet acc textKey (.str (takeLine s).2))
    else
      match colonSplit (takeLine s).1 with
      | none => none
      | some nv =>
        if (takeLine s).2.isEmpty then some (mapSet acc nv.1 (.str (trimWS nv.2)))
        else readAuxF fuel (takeLine s).2 (mapSet acc nv.1 (.str (trimWS nv.2)))

/-- The header loop with always-sufficient fuel. -/
def readAux (s : Str) (acc : Tiddler) : Option Tiddler :=
  readAuxF (s.length + 1) s acc

/-- Model of `TiddlerFile.Read` on a full stream: parse the headers and body, then
default a missing `revision` field to `"0"`.  `none` models the Go panic on
a colon-free header line. -/
def tfRead (s : Str) : Option Tiddler :=
  (readAux s []).map fun t =>
    if (alookup revisionKey t).isSome then t
    else mapSet t revisionKey (.str "0".data)

/-- Model of the nested-map assertion of the `fields` branch of
`TiddlerFile.Write`, followed by the flattening of the sub-map into one
header line per entry; `none` is the Go panic on any other value. -/
def writeFieldsVal : TValue → Option Str
  | .fmap m => some (m.foldr (fun p acc => p.1 ++ ':' :: ' ' :: p.2 ++ '\n' :: acc) [])
  | _ => none

/-- Model of the string assertion of `TiddlerFile.Write`; `none` is the Go
panic on a non-string value. -/
def writeStrVal : TValue → Option Str
  | .str s => some s
  | _ => none

/-- The header-emitting loop of `TiddlerFile.Write`: every field except
`text` becomes a `name: value\n` line (`text` is skipped; a `fields`
sub-map is flattened into one line per entry).  `none` models the Go panic
of the type assertions. -/
def tfWriteHeaders : Tiddler → Option Str
  | [] => some []
  | (f, v) :: rest =>
    if f = fieldsKey then
      (writeFieldsVal v).bind fun fl => (tfWriteHeaders rest).map fun r => fl ++ r
    else if f = textKey then tfWriteHeaders rest
    else
      (writeStrVal v).bind fun s =>
        (tfWriteHeaders rest).map fun r => f ++ ':' :: ' ' :: s ++ '\n' :: r

/-- Model of `TiddlerFile.Write`: header lines, one blank separator line, then the
raw `text` body when present.  `none` models the Go panic of the
`txt.(string)` assertion on a non-string `text`. -/
def tfWrite (t : Tiddler) : Option Str :=
  (tfWriteHeaders t).bind fun h =>
    match alookup textKey t with
    | none => some (h ++ ['\n'])
    | some v => (writeStrVal v).map fun s => h ++ '\n' :: s

/-- Model of `strings.HasPrefix`. -/
def hasPrefixB : Str → Str → Bool
  | [], _ => true
  | _ :: _, [] => false
  | a :: as, b :: bs => a = b && hasPrefixB as bs

/-- Model of `strings.HasSuffix`. -/
def endsWith (s suf : Str) : Bool := hasPrefixB suf.reverse s.reverse

/-- Model of `strings.TrimSuffix`. -/
def dropSuffix (s suf : Str) : Str :=
  if endsWith s suf then (s.reverse.drop suf.length).reverse else s

/-- Model of `reBinaryType` = `/(pdf|gif|jpeg|png|x-icon)$`. -/
def isBinaryType (ty : Str) : Bool :=
  endsWith ty "/pdf".data || endsWith ty "/gif".data || endsWith ty "/jpeg".data ||
    endsWith ty "/png".data || endsWith ty "/x-icon".data

/-- Model of `tiddlerFilename`: replace every `/`, `:`, `"` in the title with `_`
and append `.tid`. -/
def tiddlerFilename (title : Str) : Str :=
  (title.map fun c => if c = '/' || c = ':' || c = '"' then '_' else c) ++ ".tid".data

/-- Model of `filepath.Join` for the two-component joins the store performs (path
cleaning beyond the empty-first-component case does not arise here). -/
def pathJoin (a b : Str) : Str := if a.isEmpty then b else a ++ '/' :: b

def metaSuffix : Str := ".meta".data

/-- Outcome of a call modelled with Go's (value, error) + panic
possibilities: `failed` is an error return, `panicked` a Go panic. -/
inductive ReadOutcome where
  | panicked
  | failed
  | ok (t : Tiddler)
deriving DecidableEq, Repr

/-- Model of `readTiddlerFileWithReadCloser`: open and parse the primary location;
when the path ends in `.meta`, additionally fetch the raw bytes of the path
with the suffix removed and store them in `text` — as a byte slice when the
record's `type` matches the binary pattern, as a string otherwise.  The
backend is a partial map from location to content (`none` = reader error);
`.panicked` covers the parse panic and the `tid["type"].(string)` assertion
panic. -/
def readTid (path : Str) (backend : Str → Option Str) : ReadOutcome :=
  match backend path with
  | none => .failed
  | some content =>
    match tfRead content with
    | none => .panicked
    | some tid =>
      if endsWith path metaSuffix then
        match backend (dropSuffix path metaSuffix) with
        | none => .failed
        | some b =>
          match alookup typeKey tid with
          | some (.str ty) =>
            .ok (mapSet tid textKey (if isBinaryType ty then .bytes b else .str b))
          | _ => .panicked
      else .ok tid

/-- Number of backend read calls `readTiddlerFileWithReadCloser` issues for
a path: one for the primary location, plus one for the sidecar when the
primary parsed and the path ends in `.meta`. -/
def readTidReadCount (path : Str) (backend : Str → Option Str) : Nat :=
  match backend path with
  | none => 1
  | some content =>
    match tfRead content with
    | none => 1
    | some _ => if endsWith path metaSuffix then 2 else 1

/-- Model of `getTiddlerFileFromStore`: resolve the filename through the index
(canonical synthesis when unindexed), then probe the cache **by the
resolved filename** (exactly as the source does) before reading from the
backend.  The second component counts backend reads. -/
def getTiddlerFileFromStore (title tiddlersDir : Str) (index : List (Str × Str))
    (cache : List (Str × Tiddler)) (backend : Str → Option Str) : ReadOutcome × Nat :=
  let filename :=
    match alookup title index with
    | some f => f
    | none => pathJoin tiddlersDir (tiddlerFilename title)
  match alookup filename cache with
  | some t => (.ok t, 0)
  | none => (readTid filename backend, readTidReadCount filename backend)

/-- One worker step of `buildCacheAndIndex`: a read error is logged and the
item skipped; a successfully parsed record with a (string) title is
inserted into both maps; a parse panic (or a non-string title, unreachable
for parsed records) crashes the build. -/
def buildStep (backend : Str → Option Str)
    (ic : List (Str × Str) × List (Str × Tiddler)) (path : Str) :
    Option (List (Str × Str) × List (Str × Tiddler)) :=
  match readTid path backend with
  | .panicked => none
  | .failed => some ic
  | .ok tid =>
    match alookup titleKey tid with
    | some (.str ttl) => some (mapSet ic.1 ttl path, mapSet ic.2 ttl tid)
    | some _ => none
    | none => some ic

/-- Model of `buildCacheAndIndex` over the list of enumerated locations (the worker
pool is modelled sequentially; insertion order is unspecified in the source
and the claims are order-insensitive). -/
def buildCacheAndIndex (paths : List Str) (backend : Str → Option Str) :
    Option (List (Str × Str) × List (Str × Tiddler)) :=
  paths.foldlM (buildStep backend) ([], [])

/-- One worker step of `getAllTiddlerFilesFromStore`: a failed read leaves
a nil record, and the `panic("shit: ...")` guard fires on any record
without a title, so a single failed item crashes the whole listing. -/
def getAllStep (backend : Str → Option Str) (acc : List Tiddler) (path : Str) :
    Option (List Tiddler) :=
  match readTid path backend with
  | .ok tid => if (alookup titleKey tid).isSome then some (acc ++ [tid]) else none
  | _ => none

/-- Model of `getAllTiddlerFilesFromStore`: with a non-empty cache, return its
values; otherwise read every enumerated location (worker pool modelled
sequentially), crashing on any failed item. -/
def getAllTiddlerFilesFromStore (cache : List (Str × Tiddler))
    (backend : Str → Option Str) (paths : List Str) : Option (List Tiddler) :=
  if cache.length > 0 then some (cache.map Prod.snd)
  else paths.foldlM (getAllStep backend) []

/-- Model of `Tiddler.Field`: map read with `""` default; `none` models the
`v.(string)` assertion panic on a non-string value. -/
def fieldStr (t : Tiddler) (name : Str) : Option Str :=
  match alookup name t with
  | some (.str s) => some s
  | none => some []
  | some _ => none

/-- Model of `writeTiddlerToWriter`: synthesize the canonical path from the title,
obtain a writer (`openW`), line-encode the record and write it (`sink`);
only a fully successful write updates the index and the cache.  Result:
`none` = panic; `some (some e, i, c)` = error return `e` with maps `i`,`c`;
`some (none, i, c)` = success. -/
def writeTiddlerToWriter (t : Tiddler) (tiddlersDir : Str)
    (index : List (Str × Str)) (cache : List (Str × Tiddler))
    (openW : Str → Except Str Unit) (sink : Str → Str → Except Str Unit) :
    Option (Option Str × List (Str × Str) × List (Str × Tiddler)) :=
  match fieldStr t titleKey with
  | none => none
  | some title =>
    match openW (pathJoin tiddlersDir (tiddlerFilename title)) with
    | .error e => some (some e, index, cache)
    | .ok _ =>
      match tfWrite t with
      | none => none
      | some bs =>
        match sink (pathJoin tiddlersDir (tiddlerFilename title)) bs with
        | .error e => some (some e, index, cache)
        | .ok _ => some (none,
            mapSet index title (pathJoin tiddlersDir (tiddlerFilename title)),
            mapSet cache title t)

/-- Model of `fileStore.DeleteTiddler` (the google-bucket and s3 stores follow the
same shape): the location is `tiddlerToFile[title]` — a plain map read
whose zero value is the empty string, with **no** canonical-name fallback;
on backend-removal success the title is deleted from both maps.  The first
component records the location handed to the backend removal; the second is
`some ()` exactly when an error is returned. -/
def deleteTiddlerFS (title : Str) (index : List (Str × Str))
    (cache : List (Str × Tiddler)) (remove : Str → Bool) :
    Str × Option Unit × List (Str × Str) × List (Str × Tiddler) :=
  if remove ((alookup title index).getD []) then
    ((alookup title index).getD [], none, mapDel index title, mapDel cache title)
  else ((alookup title index).getD [], some (), index, cache)

/-- The scanning loop of `getTiddlerFileTile` ("peek"), with fuel: a
whitespace-only line ends the scan with the `title not found` error; a line
with prefix `title:` yields its trimmed value, or the empty error message
(`Invalid`) when that value is empty; end of stream also ends the scan. -/
def peekAuxF : Nat → Str → Except Str Str
  | 0, _ => .error "fuel".data
  | fuel + 1, s =>
    if isWSOnly (takeLine s).1 then .error "title not found".data
    else if hasPrefixB "title:".data (takeLine s).1 then
      match colonSplit (takeLine s).1 with
      | some nv =>
        if (trimWS nv.2).isEmpty then .error [] else .ok (trimWS nv.2)
      | none => .error "unreachable".data
    else if (takeLine s).2.isEmpty then .error "title not found".data
    else peekAuxF fuel (takeLine s).2

/-- Model of `getTiddlerFileTile`: title peek over a whole stream. -/
def getTiddlerFileTile (s : Str) : Except Str Str :=
  peekAuxF (s.length + 1) s

/-- The header lines of a stream: every line before the first
whitespace-only line (or before end of stream). -/
def headerLinesF : Nat → Str → List Str
  | 0, _ => []
  | fuel + 1, s =>
    if isWSOnly (takeLine s).1 then []
    else if (takeLine s).2.isEmpty then [(takeLine s).1]
    else (takeLine s).1 :: headerLinesF fuel (takeLine s).2

def headerLines (s : Str) : List Str := headerLinesF (s.length + 1) s

/-- The value is a string. -/
def isStrB : TValue → Bool
  | .str _ => true
  | _ => false

/-- The value is a non-empty string. -/
def isNonemptyStr : TValue → Bool
  | .str s => !s.isEmpty
  | _ => false

/-- A field name that survives the line split: no colon (the split is at
the first colon) and no newline. -/
def goodKey (k : Str) : Bool := !k.any (fun c => c = ':' || c = '\n')

/-- A header value that survives the line encoding: a string without
newlines that is stable under whitespace trimming on both ends. -/
def goodVal : TValue → Bool
  | .str s =>
    !s.any (· = '\n') && decide (s.dropWhile isSpaceB = s) &&
      decide (s.reverse.dropWhile isSpaceB = s.reverse)
  | _ => false

/-- Records for which the line encoding round-trips: unique keys, every
non-`text` binding a well-behaved string under a colon-free newline-free
name other than `fields`, a `revision` binding present, and any `text`
binding a non-empty string. -/
def GoodTid (t : Tiddler) : Prop :=
  (t.map Prod.fst).Nodup ∧
    (∀ p ∈ t, p.1 ≠ textKey → p.1 ≠ fieldsKey ∧ goodKey p.1 = true ∧ goodVal p.2 = true) ∧
    (alookup revisionKey t).isSome ∧
    (∀ p ∈ t, p.1 = textKey → isNonemptyStr p.2 = true)

instance (t : Tiddler) : Decidable (GoodTid t) := by
  unfold GoodTid; infer_instance

/-- The header bindings a record emits: every binding except `text`,
paired with its string payload. -/
def hdrEntries (t : Tiddler) : List (Str × Str) :=
  t.filterMap fun p =>
    if p.1 = textKey then none
    else
      match p.2 with
      | .str s => some (p.1, s)
      | _ => none

/-- The concatenated `name: value\n` header lines for a binding list. -/
def hdrChars (hs : List (Str × Str)) : Str :=
  hs.foldr (fun p acc => p.1 ++ ':' :: ' ' :: p.2 ++ '\n' :: acc) []

/-- The string body of a record (empty when `text` is absent). -/
def textOf (t : Tiddler) : Str :=
  match alookup textKey t with
  | some (.str s) => s
  | _ => []

instance : DecidableEq (List (Str × Str) × List (Str × Tiddler)) :=
  instDecidableEqProd

instance : DecidableEq (Option Str × List (Str × Str) × List (Str × Tiddler)) :=
  instDecidableEqProd

instance : DecidableEq (Option Unit × List (Str × Str) × List (Str × Tiddler)) :=
  instDecidableEqProd

instance : DecidableEq (Str × Option Unit × List (Str × Str) × List (Str × Tiddler)) :=
  instDecidableEqProd

/-- Concrete record used in the store evaluations below. -/
def fooTid : Tiddler := [(titleKey, .str "Foo".data), (revisionKey, .str "0".data)]

/-- Concrete single-file backend used in the store evaluations below. -/
def beFoo : Str → Option Str :=
  fun p => if p = "tiddlers/Foo.tid".data then some "title: Foo\n\n".data else none

/-- Two raw non-UTF-8-text bytes (0xFF 0xD8), as in the spec's binary
sidecar example. -/
def imgBytes : Str := [Char.ofNat 255, Char.ofNat 216]

/-- Concrete backend with a binary sidecar pair `img.png.meta`/`img.png`. -/
def beImg : Str → Option Str := fun p =>
  if p = "img.png.meta".data then some "title: I\ntype: image/png\n".data
  else if p = "img.png".data then some imgBytes
  else none

/-- Folding the parsed header bindings into an accumulator record, exactly
as the read loop does. -/
def foldIns (hs : List (Str × Str)) (acc : Tiddler) : Tiddler :=
  hs.foldl (fun a p => mapSet a p.1 (.str p.2)) acc

/-! ## Basic lemmas about the line primitives -/

theorem takeLine_len (s : Str) :
    (takeLine s).1.length + (takeLine s).2.length = s.length := by
  induction s with
  | nil => simp [takeLine]
  | cons c cs ih =>
    by_cases h : c = '\n'
    · simp [takeLine, h]; omega
    · simp only [takeLine, if_neg h, List.length_cons]
      omega

theorem takeLine_fst_ne_nil {s : Str} (h : s ≠ []) : (takeLine s).1 ≠ [] := by
  match s with
  | c :: cs =>
    by_cases hc : c = '\n' <;> simp [takeLine, hc]

theorem takeLine_no_nl {l : Str} (r : Str) (h : '\n' ∉ l) :
    takeLine (l ++ '\n' :: r) = (l ++ ['\n'], r) := by
  induction l with
  | nil => simp [takeLine]
  | cons c cs ih =>
    have hc : c ≠ '\n' := fun hc => h (hc ▸ List.mem_cons_self c cs)
    have hcs : '\n' ∉ cs := fun hm => h (List.mem_cons_of_mem c hm)
    simp [takeLine, hc, ih hcs]

theorem isWSOnly_false_of_mem {c : Char} {l : Str} (hc : c ∈ l)
    (hs : isSpaceB c = false) : isWSOnly l = false := by
  unfold isWSOnly
  induction l with
  | nil => cases hc
  | cons a as ih =>
    rcases List.mem_cons.mp hc with h | h
    · subst h; simp [hs]
    · simp [ih h]

theorem colonSplit_append {k : Str} (r : Str) (hk : ':' ∉ k) :
    colonSplit (k ++ ':' :: r) = some (k, r) := by
  induction k with
  | nil => simp [colonSplit]
  | cons c cs ih =>
    have hc : c ≠ ':' := fun hc => hk (hc ▸ List.mem_cons_self c cs)
    have hcs : ':' ∉ cs := fun hm => hk (List.mem_cons_of_mem c hm)
    simp [colonSplit, hc, ih hcs]

theorem colonSplit_eq_none {l : Str} (h : ':' ∉ l) : colonSplit l = none := by
  induction l with
  | nil => rfl
  | cons c cs ih =>
    have hc : c ≠ ':' := fun hc => h (hc ▸ List.mem_cons_self c cs)
    have hcs : ':' ∉ cs := fun hm => h (List.mem_cons_of_mem c hm)
    simp [colonSplit, hc, ih hcs]

theorem dropWhile_all_space_append {l : Str} (r : Str) (h : l.all isSpaceB = true) :
    (l ++ r).dropWhile isSpaceB = r.dropWhile isSpaceB := by
  induction l with
  | nil => simp
  | cons c cs ih =>
    simp only [List.all_cons, Bool.and_eq_true] at h
    simp [List.dropWhile_cons, h.1, ih h.2]

theorem trim_allspace {v : Str} (h : v.all isSpaceB = true) :
    trimWS (v ++ ['\n']) = [] := by
  unfold trimWS dropTrail
  rw [dropWhile_all_space_append _ h]
  simp [List.dropWhile_cons, isSpaceB]

theorem dropTrail_append_nl {v : Str}
    (h2 : v.reverse.dropWhile isSpaceB = v.reverse) :
    dropTrail (v ++ ['\n']) = v := by
  unfold dropTrail
  rw [List.reverse_append, List.reverse_singleton, List.singleton_append]
  rw [List.dropWhile_cons, if_pos (by decide : isSpaceB '\n' = true), h2,
    List.reverse_reverse]

theorem trim_sep {v : Str} (h1 : v.dropWhile isSpaceB = v)
    (h2 : v.reverse.dropWhile isSpaceB = v.reverse) :
    trimWS (' ' :: v ++ ['\n']) = v := by
  unfold trimWS
  rw [List.cons_append, List.dropWhile_cons, if_pos (by decide : isSpaceB ' ' = true)]
  cases v with
  | nil => decide
  | cons c v' =>
    have hc : isSpaceB c = false := by
      have := List.dropWhile_eq_self_iff.mp h1 (by simp)
      simpa using this
    rw [List.cons_append, List.dropWhile_cons, if_neg (by simp [hc]),
      ← List.cons_append]
    exact dropTrail_append_nl h2

/-! ## Lemmas about the map model -/

theorem alookup_mapSet {α : Type} (t : List (Str × α)) (k k' : Str) (v : α) :
    alookup k (mapSet t k' v) = if k' = k then some v else alookup k t := by
  induction t with
  | nil => by_cases h : k' = k <;> simp [mapSet, alookup, h]
  | cons p rest ih =>
    obtain ⟨pk, pv⟩ := p
    by_cases h1 : pk = k'
    · subst h1
      simp only [mapSet, if_pos rfl]
      by_cases h2 : pk = k <;> simp [alookup, h2]
    · simp only [mapSet, if_neg h1]
      by_cases h2 : pk = k
      · subst h2
        have hne : ¬k' = pk := fun hh => h1 hh.symm
        simp [alookup, hne]
      · simp [alookup, h2, ih]

theorem alookup_mapDel {α : Type} (t : List (Str × α)) (k k' : Str) :
    alookup k (mapDel t k') = if k' = k then none else alookup k t := by
  induction t with
  | nil => by_cases h : k' = k <;> simp [mapDel, alookup, h]
  | cons p rest ih =>
    obtain ⟨pk, pv⟩ := p
    by_cases h1 : pk = k'
    · subst h1
      simp only [mapDel, if_pos rfl, if_true]
      rw [ih]
      by_cases h2 : pk = k <;> simp [alookup, h2]
    · simp only [mapDel, if_neg h1]
      by_cases h2 : pk = k
      · subst h2
        have hne : ¬k' = pk := fun hh => h1 hh.symm
        simp [alookup, hne]
      · simp [alookup, h2, ih]

/-! ## Fuel irrelevance and unfolding equations for the reading loops -/

theorem readAuxF_irrel : ∀ f1 f2 s acc, s.length < f1 → s.length < f2 →
    readAuxF f1 s acc = readAuxF f2 s acc := by
  intro f1
  induction f1 with
  | zero => intro f2 s acc h1 _; omega
  | succ g ih =>
    intro f2 s acc h1 h2
    cases f2 with
    | zero => omega
    | succ g2 =>
      simp only [readAuxF]
      by_cases hws : isWSOnly (takeLine s).1 = true
      · simp [hws]
      · simp only [hws, if_false]
        cases hcs : colonSplit (takeLine s).1 with
        | none => rfl
        | some nv =>
          by_cases hemp : (takeLine s).2.isEmpty = true
          · simp [hemp]
          · simp only [hemp, if_false]
            have hfst : (takeLine s).1 ≠ [] := by
              intro hnil; rw [hnil] at hws; exact hws rfl
            have hlen := takeLine_len s
            have hpos : 0 < (takeLine s).1.length := List.length_pos.mpr hfst
            exact ih g2 (takeLine s).2 (mapSet acc nv.1 (.str (trimWS nv.2)))
              (by omega) (by omega)

theorem readAux_eq (s : Str) (acc : Tiddler) :
    readAux s acc =
      if isWSOnly (takeLine s).1 then
        some (if (takeLine s).2.isEmpty then acc
              else mapSet acc textKey (.str (takeLine s).2))
      else
        match colonSplit (takeLine s).1 with
        | none => none
        | some nv =>
          if (takeLine s).2.isEmpty then some (mapSet acc nv.1 (.str (trimWS nv.2)))
          else readAux (takeLine s).2 (mapSet acc nv.1 (.str (trimWS nv.2))) := by
  have key : ∀ f, s.length < f → readAuxF f s acc =
      if isWSOnly (takeLine s).1 then
        some (if (takeLine s).2.isEmpty then acc
              else mapSet acc textKey (.str (takeLine s).2))
      else
        match colonSplit (takeLine s).1 with
        | none => none
        | some nv =>
          if (takeLine s).2.isEmpty then some (mapSet acc nv.1 (.str (trimWS nv.2)))
          else readAux (takeLine s).2 (mapSet acc nv.1 (.str (trimWS nv.2))) := by
    intro f hf
    cases f with
    | zero => omega
    | succ g =>
      simp only [readAuxF]
      by_cases hws : isWSOnly (takeLine s).1 = true
      · simp only [if_pos hws]
      · simp only [if_neg hws]
        cases hcs : colonSplit (takeLine s).1 with
        | none => simp only [hcs]
        | some nv =>
          simp only [hcs]
          by_cases hemp : (takeLine s).2.isEmpty = true
          · simp only [if_pos hemp]
          · simp only [if_neg hemp]
            have hfst : (takeLine s).1 ≠ [] := by
              intro hnil; rw [hnil] at hws; exact hws rfl
            have hlen := takeLine_len s
            have hpos : 0 < (takeLine s).1.length := List.length_pos.mpr hfst
            unfold readAux
            exact readAuxF_irrel g ((takeLine s).2.length + 1) (takeLine s).2
              (mapSet acc nv.1 (.str (trimWS nv.2))) (by omega) (by omega)
  exact key (s.length + 1) (Nat.lt_succ_self _)

theorem peekAuxF_irrel : ∀ f1 f2 s, s.length < f1 → s.length < f2 →
    peekAuxF f1 s = peekAuxF f2 s := by
  intro f1
  induction f1 with
  | zero => intro f2 s h1 _; omega
  | succ g ih =>
    intro f2 s h1 h2
    cases f2 with
    | zero => omega
    | succ g2 =>
      simp only [peekAuxF]
      by_cases hws : isWSOnly (takeLine s).1 = true
      · simp [hws]
      · simp only [hws, if_false]
        by_cases hpre : hasPrefixB "title:".data (takeLine s).1 = true
        · simp [hpre]
        · simp only [hpre, if_false]
          by_cases hemp : (takeLine s).2.isEmpty = true
          · simp [hemp]
          · simp only [hemp, if_false]
            have hfst : (takeLine s).1 ≠ [] := by
              intro hnil; rw [hnil] at hws; exact hws rfl
            have hlen := takeLine_len s
            have hpos : 0 < (takeLine s).1.length := List.length_pos.mpr hfst
            exact ih g2 (takeLine s).2 (by omega) (by omega)

theorem peek_eq (s : Str) :
    getTiddlerFileTile s =
      if isWSOnly (takeLine s).1 then .error "title not found".data
      else if hasPrefixB "title:".data (takeLine s).1 then
        match colonSplit (takeLine s).1 with
        | some nv =>
          if (trimWS nv.2).isEmpty then .error [] else .ok (trimWS nv.2)
        | none => .error "unreachable".data
      else if (takeLine s).2.isEmpty then .error "title not found".data
      else getTiddlerFileTile (takeLine s).2 := by
  have key : ∀ f, s.length < f → peekAuxF f s =
      if isWSOnly (takeLine s).1 then .error "title not found".data
      else if hasPrefixB "title:".data (takeLine s).1 then
        match colonSplit (takeLine s).1 with
        | some nv =>
          if (trimWS nv.2).isEmpty then .error [] else .ok (trimWS nv.2)
        | none => .error "unreachable".data
      else if (takeLine s).2.isEmpty then .error "title not found".data
      else getTiddlerFileTile (takeLine s).2 := by
    intro f hf
    cases f with
    | zero => omega
    | succ g =>
      simp only [peekAuxF]
      by_cases hws : isWSOnly (takeLine s).1 = true
      · simp only [if_pos hws]
      · simp only [if_neg hws]
        by_cases hpre : hasPrefixB "title:".data (takeLine s).1 = true
        · simp only [if_pos hpre]
        · simp only [if_neg hpre]
          by_cases hemp : (takeLine s).2.isEmpty = true
          · simp only [if_pos hemp]
          · simp only [if_neg hemp]
            have hfst : (takeLine s).1 ≠ [] := by
              intro hnil; rw [hnil] at hws; exact hws rfl
            have hlen := takeLine_len s
            have hpos : 0 < (takeLine s).1.length := List.length_pos.mpr hfst
            unfold getTiddlerFileTile
            exact peekAuxF_irrel g ((takeLine s).2.length + 1) (takeLine s).2
              (by omega) (by omega)
  exact key (s.length + 1) (Nat.lt_succ_self _)

theorem headerLinesF_irrel : ∀ f1 f2 s, s.length < f1 → s.length < f2 →
    headerLinesF f1 s = headerLinesF f2 s := by
  intro f1
  induction f1 with
  | zero => intro f2 s h1 _; omega
  | succ g ih =>
    intro f2 s h1 h2
    cases f2 with
    | zero => omega
    | succ g2 =>
      simp only [headerLinesF]
      by_cases hws : isWSOnly (takeLine s).1 = true
      · simp [hws]
      · simp only [hws, if_false]
        by_cases hemp : (takeLine s).2.isEmpty = true
        · simp [hemp]
        · simp only [hemp, if_false]
          have hfst : (takeLine s).1 ≠ [] := by
            intro hnil; rw [hnil] at hws; exact hws rfl
          have hlen := takeLine_len s
          have hpos : 0 < (takeLine s).1.length := List.length_pos.mpr hfst
          rw [ih g2 (takeLine s).2 (by omega) (by omega)]

theorem headerLines_eq (s : Str) :
    headerLines s =
      if isWSOnly (takeLine s).1 then []
      else if (takeLine s).2.isEmpty then [(takeLine s).1]
      else (takeLine s).1 :: headerLines (takeLine s).2 := by
  have key : ∀ f, s.length < f → headerLinesF f s =
      if isWSOnly (takeLine s).1 then []
      else if (takeLine s).2.isEmpty then [(takeLine s).1]
      else (takeLine s).1 :: headerLines (takeLine s).2 := by
    intro f hf
    cases f with
    | zero => omega
    | succ g =>
      simp only [headerLinesF]
      by_cases hws : isWSOnly (takeLine s).1 = true
      · simp only [if_pos hws]
      · simp only [if_neg hws]
        by_cases hemp : (takeLine s).2.isEmpty = true
        · simp only [if_pos hemp]
        · simp only [if_neg hemp]
          have hfst : (takeLine s).1 ≠ [] := by
            intro hnil; rw [hnil] at hws; exact hws rfl
          have hlen := takeLine_len s
          have hpos : 0 < (takeLine s).1.length := List.length_pos.mpr hfst
          unfold headerLines
          rw [headerLinesF_irrel g ((takeLine s).2.length + 1) (takeLine s).2
            (by omega) (by omega)]
  exact key (s.length + 1) (Nat.lt_succ_self _)

/-! ## Lemmas about lookup, the emitted headers and the parse fold -/

theorem alookup_mem {α : Type} {t : List (Str × α)} {k : Str} {v : α}
    (h : alookup k t = some v) : (k, v) ∈ t := by
  induction t with
  | nil => simp [alookup] at h
  | cons p rest ih =>
    obtain ⟨pk, pv⟩ := p
    by_cases hk : pk = k
    · subst hk
      rw [alookup, if_pos rfl] at h
      cases h
      exact List.mem_cons_self _ _
    · rw [alookup, if_neg hk] at h
      exact List.mem_cons_of_mem _ (ih h)

theorem alookup_eq_none_of_not_mem {α : Type} {t : List (Str × α)} {k : Str}
    (h : k ∉ t.map Prod.fst) : alookup k t = none := by
  induction t with
  | nil => rfl
  | cons p rest ih =>
    simp only [List.map_cons, List.mem_cons] at h
    push_neg at h
    rw [alookup, if_neg (fun hh => h.1 hh.symm)]
    exact ih h.2

theorem alookup_foldIns (hs : List (Str × Str)) (acc : Tiddler) (k : Str)
    (hnd : (hs.map Prod.fst).Nodup) :
    alookup k (foldIns hs acc) =
      match alookup k hs with
      | some v => some (TValue.str v)
      | none => alookup k acc := by
  induction hs generalizing acc with
  | nil => rfl
  | cons p hs ih =>
    obtain ⟨k1, v1⟩ := p
    simp only [List.map_cons, List.nodup_cons] at hnd
    rw [show foldIns ((k1, v1) :: hs) acc = foldIns hs (mapSet acc k1 (.str v1)) from rfl]
    rw [ih _ hnd.2]
    by_cases hk : k1 = k
    · subst hk
      have hnone : alookup k1 hs = none :=
        alookup_eq_none_of_not_mem (by
          intro hm
          exact hnd.1 hm)
      rw [hnone, alookup, if_pos rfl]
      simp [alookup_mapSet]
    · rw [alookup, if_neg hk]
      cases h2 : alookup k hs with
      | some v => rfl
      | none => simp [alookup_mapSet, hk]

theorem hdrEntries_mem {t : Tiddler} {p : Str × Str} (h : p ∈ hdrEntries t) :
    (p.1, TValue.str p.2) ∈ t ∧ p.1 ≠ textKey := by
  unfold hdrEntries at h
  rw [List.mem_filterMap] at h
  obtain ⟨q, hq, hf⟩ := h
  by_cases hqt : q.1 = textKey
  · rw [if_pos hqt] at hf; cases hf
  · rw [if_neg hqt] at hf
    cases hv : q.2 with
    | str s =>
      rw [hv] at hf
      simp only [Option.some.injEq] at hf
      subst hf
      refine ⟨?_, hqt⟩
      rw [← hv]
      exact hq
    | bytes b => rw [hv] at hf; cases hf
    | arr xs => rw [hv] at hf; cases hf
    | fmap m => rw [hv] at hf; cases hf

theorem hdrEntries_keys_mem {t : Tiddler} {k : Str}
    (h : k ∈ (hdrEntries t).map Prod.fst) : k ∈ t.map Prod.fst := by
  rw [List.mem_map] at h
  obtain ⟨p, hp, hk⟩ := h
  have := (hdrEntries_mem hp).1
  rw [List.mem_map]
  exact ⟨(p.1, TValue.str p.2), this, hk⟩

theorem hdrEntries_nodup {t : Tiddler} (h : (t.map Prod.fst).Nodup) :
    ((hdrEntries t).map Prod.fst).Nodup := by
  induction t with
  | nil => simp [hdrEntries]
  | cons p rest ih =>
    obtain ⟨pk, pv⟩ := p
    simp only [List.map_cons, List.nodup_cons] at h
    by_cases hpt : pk = textKey
    · rw [show hdrEntries ((pk, pv) :: rest) = hdrEntries rest by
        simp [hdrEntries, List.filterMap_cons, hpt]]
      exact ih h.2
    · cases pv with
      | str s =>
        rw [show hdrEntries ((pk, TValue.str s) :: rest) = (pk, s) :: hdrEntries rest by
          simp [hdrEntries, List.filterMap_cons, hpt]]
        rw [List.map_cons, List.nodup_cons]
        exact ⟨fun hm => h.1 (hdrEntries_keys_mem hm), ih h.2⟩
      | bytes b =>
        rw [show hdrEntries ((pk, TValue.bytes b) :: rest) = hdrEntries rest by
          simp [hdrEntries, List.filterMap_cons, hpt]]
        exact ih h.2
      | arr xs =>
        rw [show hdrEntries ((pk, TValue.arr xs) :: rest) = hdrEntries rest by
          simp [hdrEntries, List.filterMap_cons, hpt]]
        exact ih h.2
      | fmap m =>
        rw [show hdrEntries ((pk, TValue.fmap m) :: rest) = hdrEntries rest by
          simp [hdrEntries, List.filterMap_cons, hpt]]
        exact ih h.2

theorem alookup_hdrEntries (t : Tiddler) (k : Str) (hk : k ≠ textKey)
    (h : ∀ p ∈ t, p.1 ≠ textKey → isStrB p.2 = true) :
    (alookup k (hdrEntries t)).map TValue.str = alookup k t := by
  induction t with
  | nil => rfl
  | cons p rest ih =>
    obtain ⟨pk, pv⟩ := p
    have hrest : ∀ p ∈ rest, p.1 ≠ textKey → isStrB p.2 = true :=
      fun q hq => h q (List.mem_cons_of_mem _ hq)
    by_cases hpt : pk = textKey
    · rw [show hdrEntries ((pk, pv) :: rest) = hdrEntries rest by
        simp [hdrEntries, List.filterMap_cons, hpt]]
      rw [show alookup k ((pk, pv) :: rest) = alookup k rest by
        rw [alookup, if_neg (hpt ▸ fun hh => hk hh.symm)]]
      exact ih hrest
    · have hstr : isStrB pv = true := h (pk, pv) (List.mem_cons_self _ _) hpt
      cases pv with
      | str s =>
        rw [show hdrEntries ((pk, TValue.str s) :: rest) = (pk, s) :: hdrEntries rest by
          simp [hdrEntries, List.filterMap_cons, hpt]]
        by_cases hpk : pk = k
        · subst hpk
          rw [alookup, if_pos rfl, alookup, if_pos rfl]
          rfl
        · rw [alookup, if_neg hpk, alookup, if_neg hpk]
          exact ih hrest
      | bytes b => simp [isStrB] at hstr
      | arr xs => simp [isStrB] at hstr
      | fmap m => simp [isStrB] at hstr

theorem alookup_text_hdrEntries (t : Tiddler) :
    alookup textKey (hdrEntries t) = none := by
  apply alookup_eq_none_of_not_mem
  intro hm
  rw [List.mem_map] at hm
  obtain ⟨p, hp, hk⟩ := hm
  exact (hdrEntries_mem hp).2 hk

theorem goodKey_spec {k : Str} (h : goodKey k = true) : ':' ∉ k ∧ '\n' ∉ k := by
  unfold goodKey at h
  rw [Bool.not_eq_eq_eq_not, Bool.not_true, List.any_eq_false] at h
  constructor
  · intro hm
    have := h ':' hm
    simp at this
  · intro hm
    have := h '\n' hm
    simp at this

theorem goodVal_spec {s : Str} (h : goodVal (.str s) = true) :
    '\n' ∉ s ∧ s.dropWhile isSpaceB = s ∧ s.reverse.dropWhile isSpaceB = s.reverse := by
  unfold goodVal at h
  rw [Bool.and_eq_true, Bool.and_eq_true] at h
  obtain ⟨⟨h1, h2⟩, h3⟩ := h
  refine ⟨?_, of_decide_eq_true h2, of_decide_eq_true h3⟩
  rw [Bool.not_eq_eq_eq_not, Bool.not_true, List.any_eq_false] at h1
  intro hm
  have := h1 '\n' hm
  simp at this

/-! ## The write side of the round trip -/

theorem tfWriteHeaders_good (t : Tiddler)
    (h : ∀ p ∈ t, p.1 ≠ textKey → p.1 ≠ fieldsKey ∧ isStrB p.2 = true) :
    tfWriteHeaders t = some (hdrChars (hdrEntries t)) := by
  induction t with
  | nil => rfl
  | cons p rest ih =>
    obtain ⟨pk, pv⟩ := p
    have hrest : ∀ p ∈ rest, p.1 ≠ textKey → p.1 ≠ fieldsKey ∧ isStrB p.2 = true :=
      fun q hq => h q (List.mem_cons_of_mem _ hq)
    by_cases hpt : pk = textKey
    · subst hpt
      rw [show hdrEntries ((textKey, pv) :: rest) = hdrEntries rest by
        simp [hdrEntries, List.filterMap_cons]]
      rw [tfWriteHeaders, if_neg (by decide : ¬textKey = fieldsKey), if_pos rfl]
      exact ih hrest
    · obtain ⟨hnf, hstr⟩ := h (pk, pv) (List.mem_cons_self _ _) hpt
      cases pv with
      | str s =>
        rw [show hdrEntries ((pk, TValue.str s) :: rest) = (pk, s) :: hdrEntries rest by
          simp [hdrEntries, List.filterMap_cons, hpt]]
        rw [tfWriteHeaders, if_neg hnf, if_neg hpt]
        rw [show writeStrVal (TValue.str s) = some s from rfl, ih hrest]
        rfl
      | bytes b => simp [isStrB] at hstr
      | arr xs => simp [isStrB] at hstr
      | fmap m => simp [isStrB] at hstr

theorem tfWrite_good (t : Tiddler)
    (h : ∀ p ∈ t, p.1 ≠ textKey → p.1 ≠ fieldsKey ∧ isStrB p.2 = true)
    (ht : ∀ v, alookup textKey t = some v → isStrB v = true) :
    tfWrite t = some (hdrChars (hdrEntries t) ++ '\n' :: textOf t) := by
  unfold tfWrite
  rw [tfWriteHeaders_good t h]
  cases htx : alookup textKey t with
  | none =>
    rw [show textOf t = [] by unfold textOf; rw [htx]]
    rfl
  | some v =>
    cases v with
    | str s =>
      rw [show textOf t = s by unfold textOf; rw [htx]]
      rfl
    | bytes b => have := ht _ htx; simp [isStrB] at this
    | arr xs => have := ht _ htx; simp [isStrB] at this
    | fmap m => have := ht _ htx; simp [isStrB] at this

/-! ## The read side of the round trip -/

theorem readAux_hdr (hs : List (Str × Str)) (text : Str) (acc : Tiddler)
    (h : ∀ p ∈ hs, (':' ∉ p.1) ∧ ('\n' ∉ p.1) ∧ ('\n' ∉ p.2) ∧
      p.2.dropWhile isSpaceB = p.2 ∧ p.2.reverse.dropWhile isSpaceB = p.2.reverse) :
    readAux (hdrChars hs ++ '\n' :: text) acc =
      some (if text.isEmpty then foldIns hs acc
            else mapSet (foldIns hs acc) textKey (.str text)) := by
  induction hs generalizing acc with
  | nil =>
    rw [show hdrChars [] ++ '\n' :: text = '\n' :: text from rfl]
    rw [readAux_eq]
    rw [show takeLine ('\n' :: text) = (['\n'], text) by simp [takeLine]]
    rw [if_pos (by decide : isWSOnly ['\n'] = true)]
    rfl
  | cons p hs ih =>
    obtain ⟨k, v⟩ := p
    obtain ⟨hkc, hkn, hvn, hv1, hv2⟩ := h (k, v) (List.mem_cons_self _ _)
    have hrest := fun q hq => h q (List.mem_cons_of_mem _ hq)
    have hline : '\n' ∉ k ++ ':' :: ' ' :: v := by
      intro hm
      rcases List.mem_append.mp hm with hm | hm
      · exact hkn hm
      · rcases List.mem_cons.mp hm with hm | hm
        · cases hm
        · rcases List.mem_cons.mp hm with hm | hm
          · cases hm
          · exact hvn hm
    have hsplit : hdrChars ((k, v) :: hs) ++ '\n' :: text =
        (k ++ ':' :: ' ' :: v) ++ '\n' :: (hdrChars hs ++ '\n' :: text) := by
      show (k ++ ':' :: ' ' :: v ++ '\n' :: hdrChars hs) ++ '\n' :: text = _
      simp [List.append_assoc]
    rw [hsplit, readAux_eq, takeLine_no_nl _ hline]
    have hcolon : ':' ∈ (k ++ ':' :: ' ' :: v) ++ ['\n'] := by
      rw [List.mem_append]
      exact Or.inl (List.mem_append.mpr (Or.inr (List.mem_cons_self _ _)))
    rw [if_neg (by
      rw [isWSOnly_false_of_mem hcolon (by decide)]
      exact Bool.false_ne_true)]
    have hsplit2 : (k ++ ':' :: ' ' :: v) ++ ['\n'] = k ++ ':' :: (' ' :: v ++ ['\n']) := by
      simp [List.append_assoc]
    rw [show colonSplit ((k ++ ':' :: ' ' :: v) ++ ['\n']) = some (k, ' ' :: v ++ ['\n']) by
      rw [hsplit2]; exact colonSplit_append _ hkc]
    rw [show ((hdrChars hs ++ '\n' :: text).isEmpty) = false by
      cases hh : hdrChars hs <;> simp [hh]]
    simp only [Bool.false_eq_true, if_false]
    rw [trim_sep hv1 hv2]
    rw [ih (mapSet acc k (.str v)) hrest]
    rfl

theorem isNonemptyStr_isStrB {v : TValue} (h : isNonemptyStr v = true) :
    isStrB v = true := by
  cases v <;> simp [isNonemptyStr, isStrB] at h ⊢

theorem goodVal_isStrB {v : TValue} (h : goodVal v = true) : isStrB v = true := by
  cases v <;> simp [goodVal, isStrB] at h ⊢

theorem roundtrip_core (t : Tiddler) (h : GoodTid t) :
    ∃ out t', tfWrite t = some out ∧ tfRead out = some t' ∧
      ∀ k, alookup k t' = alookup k t := by
  obtain ⟨hnd, hhdr, hrev, htextc⟩ := h
  have hhdr' : ∀ p ∈ t, p.1 ≠ textKey → p.1 ≠ fieldsKey ∧ isStrB p.2 = true := by
    intro p hp hpt
    obtain ⟨hnf, _, hgv⟩ := hhdr p hp hpt
    exact ⟨hnf, goodVal_isStrB hgv⟩
  have hhdrS : ∀ p ∈ t, p.1 ≠ textKey → isStrB p.2 = true :=
    fun p hp hpt => (hhdr' p hp hpt).2
  have htstr : ∀ v, alookup textKey t = some v → isStrB v = true := by
    intro v hv
    exact isNonemptyStr_isStrB (htextc (textKey, v) (alookup_mem hv) rfl)
  have hw := tfWrite_good t hhdr' htstr
  have hgood : ∀ p ∈ hdrEntries t, (':' ∉ p.1) ∧ ('\n' ∉ p.1) ∧ ('\n' ∉ p.2) ∧
      p.2.dropWhile isSpaceB = p.2 ∧ p.2.reverse.dropWhile isSpaceB = p.2.reverse := by
    intro p hp
    obtain ⟨hmem, hpt⟩ := hdrEntries_mem hp
    obtain ⟨_, hgk, hgv⟩ := hhdr (p.1, .str p.2) hmem hpt
    obtain ⟨hk1, hk2⟩ := goodKey_spec hgk
    obtain ⟨hv1, hv2, hv3⟩ := goodVal_spec hgv
    exact ⟨hk1, hk2, hv1, hv2, hv3⟩
  have hr := readAux_hdr (hdrEntries t) (textOf t) [] hgood
  have hfold : ∀ k, alookup k (foldIns (hdrEntries t) []) =
      (alookup k (hdrEntries t)).map TValue.str := by
    intro k
    rw [alookup_foldIns _ _ _ (hdrEntries_nodup hnd)]
    cases alookup k (hdrEntries t) <;> rfl
  have hhe : ∀ k, k ≠ textKey →
      (alookup k (hdrEntries t)).map TValue.str = alookup k t :=
    fun k hk => alookup_hdrEntries t k hk hhdrS
  cases htx : alookup textKey t with
  | none =>
    have htoe : textOf t = [] := by unfold textOf; rw [htx]
    rw [htoe] at hr
    rw [if_pos (by rfl)] at hr
    have hlk : ∀ k, alookup k (foldIns (hdrEntries t) []) = alookup k t := by
      intro k
      by_cases hk : k = textKey
      · subst hk
        rw [hfold, alookup_text_hdrEntries, htx]
        rfl
      · rw [hfold, hhe k hk]
    have hrevp : (alookup revisionKey (foldIns (hdrEntries t) [])).isSome := by
      rw [hlk]; exact hrev
    refine ⟨hdrChars (hdrEntries t) ++ '\n' :: textOf t,
      foldIns (hdrEntries t) [], hw, ?_, hlk⟩
    unfold tfRead
    rw [htoe, hr]
    simp only [Option.map_some']
    rw [if_pos hrevp]
  | some v =>
    have hne : isNonemptyStr v = true := htextc (textKey, v) (alookup_mem htx) rfl
    cases v with
    | str s =>
      have hsne : s.isEmpty = false := by
        simp only [isNonemptyStr, Bool.not_eq_true'] at hne
        exact hne
      have htoe : textOf t = s := by unfold textOf; rw [htx]
      rw [htoe, hsne] at hr
      simp only [Bool.false_eq_true, if_false] at hr
      have hlk : ∀ k, alookup k (mapSet (foldIns (hdrEntries t) []) textKey (.str s)) =
          alookup k t := by
        intro k
        rw [alookup_mapSet]
        by_cases hk : textKey = k
        · rw [if_pos hk, ← hk, htx]
        · rw [if_neg hk, hfold, hhe k (fun hh => hk hh.symm)]
      have hrevp : (alookup revisionKey
          (mapSet (foldIns (hdrEntries t) []) textKey (.str s))).isSome := by
        rw [hlk]; exact hrev
      refine ⟨hdrChars (hdrEntries t) ++ '\n' :: textOf t,
        mapSet (foldIns (hdrEntries t) []) textKey (.str s), hw, ?_, hlk⟩
      unfold tfRead
      rw [htoe, hr]
      simp only [Option.map_some']
      rw [if_pos hrevp]
    | bytes b => simp [isNonemptyStr] at hne
    | arr xs => simp [isNonemptyStr] at hne
    | fmap m => simp [isNonemptyStr] at hne

/-! ## Parsed records hold only string values -/

theorem acc_str_mapSet {acc : Tiddler} {k0 s0 : Str}
    (hacc : ∀ k v, alookup k acc = some v → isStrB v = true) :
    ∀ k v, alookup k (mapSet acc k0 (.str s0)) = some v → isStrB v = true := by
  intro k v hv
  rw [alookup_mapSet] at hv
  by_cases hk : k0 = k
  · rw [if_pos hk] at hv
    cases hv
    rfl
  · rw [if_neg hk] at hv
    exact hacc k v hv

theorem readAux_vals_str : ∀ n s acc t, s.length ≤ n →
    (∀ k v, alookup k acc = some v → isStrB v = true) →
    readAux s acc = some t →
    ∀ k v, alookup k t = some v → isStrB v = true := by
  intro n
  induction n with
  | zero =>
    intro s acc t hs hacc hr
    have : s = [] := List.length_eq_zero.mp (Nat.le_zero.mp hs)
    subst this
    rw [readAux_eq] at hr
    rw [if_pos (by decide : isWSOnly (takeLine ([] : Str)).1 = true)] at hr
    rw [show ((takeLine ([] : Str)).2.isEmpty) = true from rfl] at hr
    simp only [if_true] at hr
    cases hr
    exact hacc
  | succ m ih =>
    intro s acc t hs hacc hr
    rw [readAux_eq] at hr
    by_cases hws : isWSOnly (takeLine s).1 = true
    · rw [if_pos hws] at hr
      cases hr
      by_cases hemp : (takeLine s).2.isEmpty = true
      · rw [if_pos hemp]
        exact hacc
      · rw [if_neg hemp]
        exact acc_str_mapSet hacc
    · rw [if_neg hws] at hr
      cases hcs : colonSplit (takeLine s).1 with
      | none =>
        simp only [hcs] at hr
        cases hr
      | some nv =>
        simp only [hcs] at hr
        by_cases hemp : (takeLine s).2.isEmpty = true
        · rw [if_pos hemp] at hr
          cases hr
          exact acc_str_mapSet hacc
        · rw [if_neg hemp] at hr
          have hfst : (takeLine s).1 ≠ [] := by
            intro hnil; rw [hnil] at hws; exact hws rfl
          have hlen := takeLine_len s
          have hpos : 0 < (takeLine s).1.length := List.length_pos.mpr hfst
          exact ih (takeLine s).2 _ t (by omega) (acc_str_mapSet hacc) hr

theorem tfRead_vals_str {c : Str} {t : Tiddler} (h : tfRead c = some t) :
    ∀ k v, alookup k t = some v → isStrB v = true := by
  unfold tfRead at h
  cases hra : readAux c [] with
  | none => rw [hra] at h; cases h
  | some t0 =>
    rw [hra] at h
    simp only [Option.map_some'] at h
    have h0 : ∀ k v, alookup k t0 = some v → isStrB v = true :=
      readAux_vals_str c.length c [] t0 (le_refl _)
        (by intro k v hv; simp [alookup] at hv) hra
    by_cases hrev : (alookup revisionKey t0).isSome = true
    · rw [if_pos hrev] at h
      cases h
      exact h0
    · rw [if_neg hrev] at h
      cases h
      exact acc_str_mapSet h0

theorem readTid_title_str {path : Str} {backend : Str → Option Str} {tid : Tiddler}
    (h : readTid path backend = .ok tid) :
    ∀ v, alookup titleKey tid = some v → isStrB v = true := by
  unfold readTid at h
  cases hb : backend path with
  | none => simp only [hb] at h; cases h
  | some content =>
    simp only [hb] at h
    cases hp : tfRead content with
    | none => simp only [hp] at h; cases h
    | some t0 =>
      simp only [hp] at h
      by_cases hm : endsWith path metaSuffix = true
      · rw [if_pos hm] at h
        cases hb2 : backend (dropSuffix path metaSuffix) with
        | none => simp only [hb2] at h; cases h
        | some b =>
          simp only [hb2] at h
          cases hty : alookup typeKey t0 with
          | none => simp only [hty] at h; cases h
          | some tv =>
            cases tv with
            | str ty =>
              simp only [hty, ReadOutcome.ok.injEq] at h
              subst h
              intro v hv
              rw [alookup_mapSet, if_neg (by decide : ¬textKey = titleKey)] at hv
              exact tfRead_vals_str hp titleKey v hv
            | bytes b2 => simp only [hty] at h; cases h
            | arr xs => simp only [hty] at h; cases h
            | fmap m2 => simp only [hty] at h; cases h
      · rw [if_neg hm] at h
        simp only [ReadOutcome.ok.injEq] at h
        subst h
        intro v hv
        exact tfRead_vals_str hp titleKey v hv

/-! ## Fold lemmas for the builder and the full listing -/

theorem build_fold_ok (backend : Str → Option Str) :
    ∀ (paths : List Str) (init : List (Str × Str) × List (Str × Tiddler)),
    (∀ q ∈ paths, readTid q backend ≠ .panicked) →
    ∃ ic, List.foldlM (buildStep backend) init paths = some ic ∧
      (∀ k, (alookup k init.1).isSome → (alookup k ic.1).isSome) ∧
      (∀ k, (alookup k init.2).isSome → (alookup k ic.2).isSome) ∧
      (∀ p ∈ paths, ∀ tid ttl, readTid p backend = .ok tid →
        alookup titleKey tid = some (.str ttl) →
        (alookup ttl ic.1).isSome ∧ (alookup ttl ic.2).isSome) := by
  intro paths
  induction paths with
  | nil =>
    intro init _
    exact ⟨init, rfl, fun k h => h, fun k h => h,
      fun p hp => absurd hp (List.not_mem_nil p)⟩
  | cons p rest ih =>
    intro init hnp
    have hnp' : ∀ q ∈ rest, readTid q backend ≠ .panicked :=
      fun q hq => hnp q (List.mem_cons_of_mem _ hq)
    cases hrt : readTid p backend with
    | panicked => exact absurd hrt (hnp p (List.mem_cons_self _ _))
    | failed =>
      obtain ⟨ic, hfold, hm1, hm2, hval⟩ := ih init hnp'
      refine ⟨ic, ?_, hm1, hm2, ?_⟩
      · rw [List.foldlM_cons, show buildStep backend init p = some init by
          unfold buildStep; simp only [hrt]]
        exact hfold
      · intro q hq tid ttl hq1 hq2
        rcases List.mem_cons.mp hq with hq | hq
        · subst hq
          rw [hq1] at hrt
          cases hrt
        · exact hval q hq tid ttl hq1 hq2
    | ok tid =>
      cases htl : alookup titleKey tid with
      | none =>
        obtain ⟨ic, hfold, hm1, hm2, hval⟩ := ih init hnp'
        refine ⟨ic, ?_, hm1, hm2, ?_⟩
        · rw [List.foldlM_cons, show buildStep backend init p = some init by
            unfold buildStep; simp only [hrt, htl]]
          exact hfold
        · intro q hq tid' ttl hq1 hq2
          rcases List.mem_cons.mp hq with hq | hq
          · subst hq
            rw [hq1] at hrt
            cases hrt
            rw [hq2] at htl
            cases htl
          · exact hval q hq tid' ttl hq1 hq2
      | some tv =>
        have hstr := readTid_title_str hrt tv htl
        cases tv with
        | str s =>
          obtain ⟨ic, hfold, hm1, hm2, hval⟩ :=
            ih (mapSet init.1 s p, mapSet init.2 s tid) hnp'
          refine ⟨ic, ?_, ?_, ?_, ?_⟩
          · rw [List.foldlM_cons, show buildStep backend init p =
              some (mapSet init.1 s p, mapSet init.2 s tid) by
                unfold buildStep; simp only [hrt, htl]]
            exact hfold
          · intro k hk
            apply hm1
            rw [alookup_mapSet]
            by_cases hks : s = k
            · rw [if_pos hks]; rfl
            · rw [if_neg hks]; exact hk
          · intro k hk
            apply hm2
            rw [alookup_mapSet]
            by_cases hks : s = k
            · rw [if_pos hks]; rfl
            · rw [if_neg hks]; exact hk
          · intro q hq tid' ttl hq1 hq2
            rcases List.mem_cons.mp hq with hq | hq
            · subst hq
              rw [hq1] at hrt
              cases hrt
              rw [hq2] at htl
              cases htl
              constructor
              · apply hm1
                rw [alookup_mapSet, if_pos rfl]
                rfl
              · apply hm2
                rw [alookup_mapSet, if_pos rfl]
                rfl
            · exact hval q hq tid' ttl hq1 hq2
        | bytes b => simp [isStrB] at hstr
        | arr xs => simp [isStrB] at hstr
        | fmap m => simp [isStrB] at hstr

theorem build_fold_lockstep (backend : Str → Option Str) :
    ∀ (paths : List Str) (init ic : List (Str × Str) × List (Str × Tiddler)),
    (∀ k, (alookup k init.1).isSome ↔ (alookup k init.2).isSome) →
    List.foldlM (buildStep backend) init paths = some ic →
    ∀ k, (alookup k ic.1).isSome ↔ (alookup k ic.2).isSome := by
  intro paths
  induction paths with
  | nil =>
    intro init ic hinit hfold
    cases hfold
    exact hinit
  | cons p rest ih =>
    intro init ic hinit hfold
    rw [List.foldlM_cons] at hfold
    cases hstep : buildStep backend init p with
    | none => rw [hstep] at hfold; cases hfold
    | some mid =>
      rw [hstep] at hfold
      apply ih mid ic ?_ hfold
      unfold buildStep at hstep
      cases hrt : readTid p backend with
      | panicked => simp only [hrt] at hstep; cases hstep
      | failed =>
        simp only [hrt] at hstep
        cases hstep
        exact hinit
      | ok tid =>
        cases htl : alookup titleKey tid with
        | none =>
          simp only [hrt, htl] at hstep
          cases hstep
          exact hinit
        | some tv =>
          cases tv with
          | str s =>
            simp only [hrt, htl] at hstep
            cases hstep
            intro k
            simp only [alookup_mapSet]
            by_cases hks : s = k
            · simp [if_pos hks]
            · simp only [if_neg hks]
              exact hinit k
          | bytes b => simp only [hrt, htl] at hstep; cases hstep
          | arr xs => simp only [hrt, htl] at hstep; cases hstep
          | fmap m => simp only [hrt, htl] at hstep; cases hstep

theorem getAll_fold_fail (backend : Str → Option Str) :
    ∀ (paths : List Str) (acc : List Tiddler) (p : Str), p ∈ paths →
    readTid p backend = .failed →
    List.foldlM (getAllStep backend) acc paths = none := by
  intro paths
  induction paths with
  | nil =>
    intro acc p hp
    cases hp
  | cons q rest ih =>
    intro acc p hp hf
    rw [List.foldlM_cons]
    rcases List.mem_cons.mp hp with hq | hq
    · subst hq
      rw [show getAllStep backend acc p = none by unfold getAllStep; rw [hf]]
      rfl
    · cases hstep : getAllStep backend acc q with
      | none => rfl
      | some acc' =>
        rw [show (some acc' >>= fun b => List.foldlM (getAllStep backend) b rest) =
          List.foldlM (getAllStep backend) acc' rest from rfl]
        exact ih acc' p hq hf

theorem hasPrefixB_append (p r : Str) : hasPrefixB p (p ++ r) = true := by
  induction p with
  | nil => rfl
  | cons c cs ih => simp [hasPrefixB, ih]

theorem singleton_lockstep {α β : Type} (a : Str) (b : α) (d : β) :
    ∀ k, (alookup k [(a, b)]).isSome ↔ (alookup k [(a, d)]).isSome := by
  intro k
  unfold alookup
  by_cases h : a = k
  · rw [if_pos h, if_pos h]
    exact Iff.rfl
  · rw [if_neg h, if_neg h]
    exact Iff.rfl

/-! # Claim theorems -/

/-- Claim C1 (code bug): in a store built with eager indexing from one file,
the title `Foo` is present in the Cache (which `buildCacheAndIndex` keys by
title), yet `GetTiddler "Foo"` performs one backend read instead of
returning the cached record with zero reads: `getTiddlerFileFromStore`
probes the Cache with the resolved *filename* while the Cache is keyed by
*title*, so the cache hit never fires. -/
theorem c1_cached_title_still_reads_backend :
    buildCacheAndIndex ["tiddlers/Foo.tid".data] beFoo =
      some ([("Foo".data, "tiddlers/Foo.tid".data)], [("Foo".data, fooTid)]) ∧
    (alookup "Foo".data [("Foo".data, fooTid)]).isSome = true ∧
    getTiddlerFileFromStore "Foo".data "tiddlers".data
      [("Foo".data, "tiddlers/Foo.tid".data)] [("Foo".data, fooTid)] beFoo =
      (.ok fooTid, 1) := by
  refine ⟨by decide, by decide, by decide⟩

/-- Claim C2, counterexample: deleting a title absent from the Index hands
the *empty string* (the Go map zero value) to the backend removal, not the
canonical filename synthesized from the title — the claimed fallback does
not exist in `DeleteTiddler`. -/
theorem c2_unindexed_delete_uses_empty_path :
    (deleteTiddlerFS "Foo".data [] [] (fun _ => true)).1 = [] ∧
    pathJoin "tiddlers".data (tiddlerFilename "Foo".data) = "tiddlers/Foo.tid".data ∧
    (deleteTiddlerFS "Foo".data [] [] (fun _ => true)).1 ≠
      pathJoin "tiddlers".data (tiddlerFilename "Foo".data) := by
  refine ⟨by decide, by decide, by decide⟩

/-- Claim C2, amended: `DeleteTiddler` resolves the storage location by a
bare Index lookup whose zero value is the empty string (no canonical-name
fallback for unindexed titles); once the backend removal succeeds the
title is removed from both Index and Cache unconditionally, and on a
removal failure both maps are left unchanged and the error is returned. -/
theorem c2_delete_resolution (title : Str) (index : List (Str × Str))
    (cache : List (Str × Tiddler)) (remove : Str → Bool) :
    (deleteTiddlerFS title index cache remove).1 = (alookup title index).getD [] ∧
    (remove ((alookup title index).getD []) = true →
      deleteTiddlerFS title index cache remove =
        ((alookup title index).getD [], none, mapDel index title, mapDel cache title) ∧
      alookup title (mapDel index title) = none ∧
      alookup title (mapDel cache title) = none) ∧
    (remove ((alookup title index).getD []) = false →
      deleteTiddlerFS title index cache remove =
        ((alookup title index).getD [], some (), index, cache)) := by
  refine ⟨?_, ?_, ?_⟩
  · unfold deleteTiddlerFS
    by_cases hr : remove ((alookup title index).getD []) = true
    · rw [if_pos hr]
    · rw [if_neg hr]
  · intro hr
    unfold deleteTiddlerFS
    rw [if_pos hr]
    exact ⟨rfl, by rw [alookup_mapDel, if_pos rfl], by rw [alookup_mapDel, if_pos rfl]⟩
  · intro hr
    unfold deleteTiddlerFS
    rw [if_neg (by rw [hr]; exact Bool.false_ne_true)]

/-- Witness for the amended C2 at a concrete indexed store. -/
theorem c2_delete_resolution_witness :
    (deleteTiddlerFS "A".data [("A".data, "p".data)] [("A".data, fooTid)]
      (fun _ => true)).1 = (alookup "A".data [("A".data, "p".data)]).getD [] ∧
    deleteTiddlerFS "A".data [("A".data, "p".data)] [("A".data, fooTid)]
      (fun _ => true) =
      ((alookup "A".data [("A".data, "p".data)]).getD [], none,
        mapDel [("A".data, "p".data)] "A".data,
        mapDel [("A".data, fooTid)] "A".data) ∧
    alookup "A".data (mapDel [("A".data, "p".data)] "A".data) = none := by
  have h := c2_delete_resolution "A".data [("A".data, "p".data)]
    [("A".data, fooTid)] (fun _ => true)
  exact ⟨h.1, (h.2.1 (by decide)).1, (h.2.1 (by decide)).2.1⟩

/-- Claim C8: any stream whose first line is non-blank and holds no colon
makes `TiddlerFile.Read` panic (the Go slice `line[:-1]` is out of range);
the line decoder is not total. `none` is the modelled panic, distinct from
an error return. -/
theorem c8_read_panics_without_colon (s : Str)
    (h1 : isWSOnly (takeLine s).1 = false)
    (h2 : ':' ∉ (takeLine s).1) :
    tfRead s = none := by
  unfold tfRead
  rw [readAux_eq, if_neg (by rw [h1]; exact Bool.false_ne_true),
    colonSplit_eq_none h2]
  rfl

/-- Witness for C8: the panic fires on the concrete stream "oops\n". -/
theorem c8_read_panics_witness : tfRead "oops\n".data = none :=
  c8_read_panics_without_colon "oops\n".data (by decide) (by decide)

/-- Claim C10: every successful decode carries a `revision` binding; a
decode whose parsed headers lack `revision` yields `revision = "0"`, and
one that carries `revision` keeps its value (the record is returned
unchanged). -/
theorem c10_revision_default :
    (∀ s t, tfRead s = some t → (alookup revisionKey t).isSome = true) ∧
    (∀ s t0, readAux s [] = some t0 → alookup revisionKey t0 = none →
      tfRead s = some (mapSet t0 revisionKey (.str "0".data)) ∧
      alookup revisionKey (mapSet t0 revisionKey (.str "0".data)) =
        some (.str "0".data)) ∧
    (∀ s t0 v, readAux s [] = some t0 → alookup revisionKey t0 = some v →
      tfRead s = some t0) := by
  refine ⟨?_, ?_, ?_⟩
  · intro s t h
    unfold tfRead at h
    cases hra : readAux s [] with
    | none => rw [hra] at h; cases h
    | some t0 =>
      rw [hra] at h
      simp only [Option.map_some'] at h
      by_cases hrev : (alookup revisionKey t0).isSome = true
      · rw [if_pos hrev] at h
        cases h
        exact hrev
      · rw [if_neg hrev] at h
        cases h
        rw [alookup_mapSet, if_pos rfl]
        rfl
  · intro s t0 hra hnone
    constructor
    · unfold tfRead
      rw [hra]
      simp only [Option.map_some']
      rw [if_neg (by rw [hnone]; exact Bool.false_ne_true)]
    · rw [alookup_mapSet, if_pos rfl]
  · intro s t0 v hra hsome
    unfold tfRead
    rw [hra]
    simp only [Option.map_some']
    rw [if_pos (by rw [hsome]; rfl)]

/-- Claim C3, counterexample: with an empty cache, a single unreadable
location makes the full listing fail (`none` = the `panic("shit: ...")`
crash) even though the other enumerated location is perfectly valid — the
pass is aborted, not continued. -/
theorem c3_listing_fails_on_single_bad_item :
    readTid "missing.tid".data beFoo = .failed ∧
    readTid "tiddlers/Foo.tid".data beFoo = .ok fooTid ∧
    getAllTiddlerFilesFromStore [] beFoo
      ["missing.tid".data, "tiddlers/Foo.tid".data] = none := by
  refine ⟨by decide, by decide, by decide⟩

/-- Claim C3, amended: during index/cache construction a per-item read
failure is logged and skipped — the build still succeeds and every other
valid location is still indexed and cached (provided no location makes the
parser panic).  During the full listing with an empty cache, however, a
single failed read aborts the whole pass with a panic. -/
theorem c3_bulk_enumeration (paths : List Str) (backend : Str → Option Str) :
    ((∀ q ∈ paths, readTid q backend ≠ .panicked) →
      ∃ ic, buildCacheAndIndex paths backend = some ic ∧
        ∀ p ∈ paths, ∀ tid ttl, readTid p backend = .ok tid →
          alookup titleKey tid = some (.str ttl) →
          (alookup ttl ic.1).isSome ∧ (alookup ttl ic.2).isSome) ∧
    (∀ p ∈ paths, readTid p backend = .failed →
      getAllTiddlerFilesFromStore [] backend paths = none) := by
  constructor
  · intro hnp
    obtain ⟨ic, h1, _, _, h4⟩ := build_fold_ok backend paths ([], []) hnp
    exact ⟨ic, h1, h4⟩
  · intro p hp hf
    unfold getAllTiddlerFilesFromStore
    rw [if_neg (by decide : ¬(List.length ([] : List (Str × Tiddler)) > 0))]
    exact getAll_fold_fail backend paths [] p hp hf

/-- Witness for the amended C3: one failing and one valid location. -/
theorem c3_bulk_enumeration_witness :
    getAllTiddlerFilesFromStore [] beFoo
      ["missing.tid".data, "tiddlers/Foo.tid".data] = none ∧
    (∃ ic, buildCacheAndIndex ["missing.tid".data, "tiddlers/Foo.tid".data] beFoo =
        some ic ∧
      (alookup "Foo".data ic.1).isSome ∧ (alookup "Foo".data ic.2).isSome) := by
  have h := c3_bulk_enumeration ["missing.tid".data, "tiddlers/Foo.tid".data] beFoo
  refine ⟨h.2 "missing.tid".data (by decide) (by decide), ?_⟩
  obtain ⟨ic, h1, h2⟩ := h.1 (by decide)
  have h3 := h2 "tiddlers/Foo.tid".data (by decide) fooTid "Foo".data
    (by decide) (by decide)
  exact ⟨ic, h1, h3.1, h3.2⟩

/-- Claim C5: for a record whose `title` field is the string `title`,
`writeTiddlerToWriter` returns the error and leaves Index and Cache
untouched whenever obtaining the writer fails or the write itself fails,
and it updates Index[title] to the canonical path and Cache[title] to the
record exactly when the encoded write went through. -/
theorem c5_write_updates_iff_success (t : Tiddler) (tiddlersDir : Str)
    (index : List (Str × Str)) (cache : List (Str × Tiddler))
    (openW : Str → Except Str Unit) (sink : Str → Str → Except Str Unit)
    (title : Str) (ht : alookup titleKey t = some (.str title)) :
    (∀ e, openW (pathJoin tiddlersDir (tiddlerFilename title)) = .error e →
      writeTiddlerToWriter t tiddlersDir index cache openW sink =
        some (some e, index, cache)) ∧
    (∀ bs e, openW (pathJoin tiddlersDir (tiddlerFilename title)) = .ok () →
      tfWrite t = some bs →
      sink (pathJoin tiddlersDir (tiddlerFilename title)) bs = .error e →
      writeTiddlerToWriter t tiddlersDir index cache openW sink =
        some (some e, index, cache)) ∧
    (writeTiddlerToWriter t tiddlersDir index cache openW sink =
        some (none,
          mapSet index title (pathJoin tiddlersDir (tiddlerFilename title)),
          mapSet cache title t) ↔
      openW (pathJoin tiddlersDir (tiddlerFilename title)) = .ok () ∧
      ∃ bs, tfWrite t = some bs ∧
        sink (pathJoin tiddlersDir (tiddlerFilename title)) bs = .ok ()) := by
  have hf : fieldStr t titleKey = some title := by
    unfold fieldStr
    rw [ht]
  refine ⟨?_, ?_, ?_⟩
  · intro e he
    unfold writeTiddlerToWriter
    simp only [hf, he]
  · intro bs e ho hw hs
    unfold writeTiddlerToWriter
    simp only [hf, ho, hw, hs]
  · constructor
    · intro hres
      unfold writeTiddlerToWriter at hres
      simp only [hf] at hres
      cases ho : openW (pathJoin tiddlersDir (tiddlerFilename title)) with
      | error e =>
        simp only [ho] at hres
        simp at hres
      | ok u =>
        cases u
        simp only [ho] at hres
        cases hw : tfWrite t with
        | none => simp only [hw] at hres; cases hres
        | some bs =>
          simp only [hw] at hres
          cases hs : sink (pathJoin tiddlersDir (tiddlerFilename title)) bs with
          | error e =>
            simp only [hs] at hres
            simp at hres
          | ok u2 =>
            cases u2
            exact ⟨rfl, bs, rfl, hs⟩
    · rintro ⟨ho, bs, hw, hs⟩
      unfold writeTiddlerToWriter
      simp only [hf, ho, hw, hs]

/-- Witness for C5: a fully successful concrete write updates both maps. -/
theorem c5_write_witness :
    writeTiddlerToWriter fooTid "tiddlers".data [] []
      (fun _ => .ok ()) (fun _ _ => .ok ()) =
      some (none,
        mapSet [] "Foo".data (pathJoin "tiddlers".data (tiddlerFilename "Foo".data)),
        mapSet [] "Foo".data fooTid) := by
  have h := c5_write_updates_iff_success fooTid "tiddlers".data [] []
    (fun _ => .ok ()) (fun _ _ => .ok ()) "Foo".data (by decide)
  exact h.2.2.mpr ⟨rfl, "title: Foo\nrevision: 0\n\n".data, by decide, rfl⟩

/-- Claim C6: the Index and Cache key sets coincide after eager
construction, and the coincidence is preserved by every successful write
(both maps gain the title) and every successful delete (both maps lose
it). -/
theorem c6_index_cache_same_titles :
    (∀ paths backend ic, buildCacheAndIndex paths backend = some ic →
      ∀ k, (alookup k ic.1).isSome ↔ (alookup k ic.2).isSome) ∧
    (∀ t dir index cache openW sink i c,
      (∀ k, (alookup k index).isSome ↔ (alookup k cache).isSome) →
      writeTiddlerToWriter t dir index cache openW sink = some (none, i, c) →
      ∀ k, (alookup k i).isSome ↔ (alookup k c).isSome) ∧
    (∀ title index cache remove pth i c,
      (∀ k, (alookup k index).isSome ↔ (alookup k cache).isSome) →
      deleteTiddlerFS title index cache remove = (pth, none, i, c) →
      ∀ k, (alookup k i).isSome ↔ (alookup k c).isSome) := by
  refine ⟨?_, ?_, ?_⟩
  · intro paths backend ic hb
    exact build_fold_lockstep backend paths ([], []) ic
      (fun k => by simp [alookup]) hb
  · intro t dir index cache openW sink i c hinit hres
    unfold writeTiddlerToWriter at hres
    cases hfs : fieldStr t titleKey with
    | none => simp only [hfs] at hres; cases hres
    | some title =>
      simp only [hfs] at hres
      cases ho : openW (pathJoin dir (tiddlerFilename title)) with
      | error e =>
        simp only [ho] at hres
        simp at hres
      | ok u =>
        simp only [ho] at hres
        cases hw : tfWrite t with
        | none => simp only [hw] at hres; cases hres
        | some bs =>
          simp only [hw] at hres
          cases hsk : sink (pathJoin dir (tiddlerFilename title)) bs with
          | error e =>
            simp only [hsk] at hres
            simp at hres
          | ok u2 =>
            simp only [hsk, Option.some.injEq, Prod.mk.injEq, true_and] at hres
            obtain ⟨hi, hc⟩ := hres
            subst hi
            subst hc
            intro k
            rw [alookup_mapSet, alookup_mapSet]
            by_cases hk : title = k
            · simp [if_pos hk]
            · simp only [if_neg hk]
              exact hinit k
  · intro title index cache remove pth i c hinit hres
    unfold deleteTiddlerFS at hres
    by_cases hr : remove ((alookup title index).getD []) = true
    · rw [if_pos hr] at hres
      simp only [Prod.mk.injEq] at hres
      obtain ⟨-, -, hi, hc⟩ := hres
      subst hi
      subst hc
      intro k
      rw [alookup_mapDel, alookup_mapDel]
      by_cases hk : title = k
      · simp [if_pos hk]
      · simp only [if_neg hk]
        exact hinit k
    · rw [if_neg hr] at hres
      simp only [Prod.mk.injEq] at hres
      exact absurd hres.2.1 (by simp)

/-- Witness for C6 exercising the build, write and delete parts at
concrete stores. -/
theorem c6_index_cache_same_titles_witness :
    ((alookup "Foo".data [("Foo".data, "tiddlers/Foo.tid".data)]).isSome ↔
      (alookup "Foo".data [("Foo".data, fooTid)]).isSome) ∧
    ((alookup "Foo".data (mapSet ([] : List (Str × Str)) "Foo".data
        (pathJoin "tiddlers".data (tiddlerFilename "Foo".data)))).isSome ↔
      (alookup "Foo".data (mapSet ([] : List (Str × Tiddler)) "Foo".data
        fooTid)).isSome) ∧
    ((alookup "A".data (mapDel [("A".data, "p".data)] "A".data)).isSome ↔
      (alookup "A".data (mapDel [("A".data, fooTid)] "A".data)).isSome) := by
  refine ⟨?_, ?_, ?_⟩
  · exact c6_index_cache_same_titles.1 ["tiddlers/Foo.tid".data] beFoo
      ([("Foo".data, "tiddlers/Foo.tid".data)], [("Foo".data, fooTid)])
      (by decide) "Foo".data
  · exact c6_index_cache_same_titles.2.1 fooTid "tiddlers".data [] []
      (fun _ => .ok ()) (fun _ _ => .ok ())
      (mapSet [] "Foo".data (pathJoin "tiddlers".data (tiddlerFilename "Foo".data)))
      (mapSet [] "Foo".data fooTid)
      (fun k => by simp [alookup]) (by decide) "Foo".data
  · exact c6_index_cache_same_titles.2.2 "A".data [("A".data, "p".data)]
      [("A".data, fooTid)] (fun _ => true)
      ((alookup "A".data [("A".data, "p".data)]).getD [])
      (mapDel [("A".data, "p".data)] "A".data)
      (mapDel [("A".data, fooTid)] "A".data)
      (singleton_lockstep "A".data "p".data fooTid)
      (by decide) "A".data

/-- Claim C7: decoding a path that ends in `.meta` fetches the full byte
content of the suffix-stripped path and assigns it to `text` — as a raw
byte value when the record's `type` matches the binary MIME pattern, as a
string value otherwise. -/
theorem c7_meta_sidecar (path c : Str) (tid : Tiddler) (ty b : Str)
    (backend : Str → Option Str)
    (hmeta : endsWith path metaSuffix = true)
    (hc : backend path = some c)
    (hparse : tfRead c = some tid)
    (hty : alookup typeKey tid = some (.str ty))
    (hb : backend (dropSuffix path metaSuffix) = some b) :
    readTid path backend =
      .ok (mapSet tid textKey (if isBinaryType ty then .bytes b else .str b)) := by
  unfold readTid
  simp only [hc, hparse, if_pos hmeta, hb, hty]

/-- Witness for C7: the spec's `image/png` sidecar example — the decoded
`text` is the raw byte pair 0xFF 0xD8, tagged as bytes, not a string. -/
theorem c7_meta_sidecar_witness :
    readTid "img.png.meta".data beImg =
      .ok (mapSet [(titleKey, TValue.str "I".data),
        (typeKey, TValue.str "image/png".data),
        (revisionKey, TValue.str "0".data)] textKey (.bytes imgBytes)) := by
  have h := c7_meta_sidecar "img.png.meta".data "title: I\ntype: image/png\n".data
    [(titleKey, TValue.str "I".data), (typeKey, TValue.str "image/png".data),
      (revisionKey, TValue.str "0".data)]
    "image/png".data imgBytes beImg (by decide) (by decide) (by decide)
    (by decide) (by decide)
  rw [h]
  decide

/-- Claim C9: title peek scans header lines only: a first line
`title: v` yields the value `v`; when no header line before the blank-line
terminator (or end of stream) starts with `title:`, peek fails with the
NotFound error `"title not found"`; and when the first line carries
`title:` with a whitespace-only value, peek fails with the Invalid error
(the empty message). -/
theorem c9_title_peek :
    (∀ v rest, '\n' ∉ v → v.dropWhile isSpaceB = v →
      v.reverse.dropWhile isSpaceB = v.reverse → v ≠ [] →
      getTiddlerFileTile ("title: ".data ++ v ++ '\n' :: rest) = .ok v) ∧
    (∀ s, (∀ l ∈ headerLines s, hasPrefixB "title:".data l = false) →
      getTiddlerFileTile s = .error "title not found".data) ∧
    (∀ v rest, v.all isSpaceB = true → '\n' ∉ v →
      getTiddlerFileTile ("title:".data ++ v ++ '\n' :: rest) = .error []) := by
  refine ⟨?_, ?_, ?_⟩
  · intro v rest hnl hd1 hd2 hne
    have hlnl : '\n' ∉ "title: ".data ++ v := by
      intro hm
      rcases List.mem_append.mp hm with hm | hm
      · revert hm; decide
      · exact hnl hm
    have hmt : 't' ∈ ("title: ".data ++ v) ++ ['\n'] :=
      List.mem_append.mpr (Or.inl (List.mem_append.mpr (Or.inl (by decide))))
    have hws := isWSOnly_false_of_mem hmt (by decide)
    have hpre : hasPrefixB "title:".data (("title: ".data ++ v) ++ ['\n']) = true := by
      rw [show ((("title: ".data ++ v) ++ ['\n']) : Str) =
        "title:".data ++ (' ' :: v ++ ['\n']) from rfl]
      exact hasPrefixB_append _ _
    have hcs : colonSplit (("title: ".data ++ v) ++ ['\n']) =
        some ("title".data, ' ' :: v ++ ['\n']) := by
      rw [show ((("title: ".data ++ v) ++ ['\n']) : Str) =
        "title".data ++ ':' :: (' ' :: v ++ ['\n']) from rfl]
      exact colonSplit_append _ (by decide)
    have hvemp : v.isEmpty = false := by
      cases v with
      | nil => exact absurd rfl hne
      | cons _ _ => rfl
    rw [peek_eq, takeLine_no_nl rest hlnl]
    dsimp only
    rw [if_neg (by rw [hws]; exact Bool.false_ne_true), if_pos hpre]
    simp only [hcs]
    rw [trim_sep hd1 hd2]
    rw [if_neg (by rw [hvemp]; exact Bool.false_ne_true)]
  · intro s
    have key : ∀ n s, s.length ≤ n →
        (∀ l ∈ headerLines s, hasPrefixB "title:".data l = false) →
        getTiddlerFileTile s = .error "title not found".data := by
      intro n
      induction n with
      | zero =>
        intro s hs _
        have : s = [] := List.length_eq_zero.mp (Nat.le_zero.mp hs)
        subst this
        rw [peek_eq]
        rw [if_pos (by decide : isWSOnly (takeLine ([] : Str)).1 = true)]
      | succ m ih =>
        intro s hs hl
        rw [peek_eq]
        by_cases hws : isWSOnly (takeLine s).1 = true
        · rw [if_pos hws]
        · rw [if_neg hws]
          have hfstmem : (takeLine s).1 ∈ headerLines s := by
            rw [headerLines_eq, if_neg hws]
            by_cases hemp : (takeLine s).2.isEmpty = true
            · rw [if_pos hemp]
              exact List.mem_singleton.mpr rfl
            · rw [if_neg hemp]
              exact List.mem_cons_self _ _
          rw [if_neg (by rw [hl _ hfstmem]; exact Bool.false_ne_true)]
          by_cases hemp : (takeLine s).2.isEmpty = true
          · rw [if_pos hemp]
          · rw [if_neg hemp]
            have hfst : (takeLine s).1 ≠ [] := by
              intro hnil; rw [hnil] at hws; exact hws rfl
            have hlen := takeLine_len s
            have hpos : 0 < (takeLine s).1.length := List.length_pos.mpr hfst
            apply ih
            · omega
            · intro l hlmem
              apply hl
              rw [headerLines_eq, if_neg hws, if_neg hemp]
              exact List.mem_cons_of_mem _ hlmem
    exact key s.length s (le_refl _)
  · intro v rest hsp hnl
    have hlnl : '\n' ∉ "title:".data ++ v := by
      intro hm
      rcases List.mem_append.mp hm with hm | hm
      · revert hm; decide
      · exact hnl hm
    have hmt : 't' ∈ ("title:".data ++ v) ++ ['\n'] :=
      List.mem_append.mpr (Or.inl (List.mem_append.mpr (Or.inl (by decide))))
    have hws := isWSOnly_false_of_mem hmt (by decide)
    have hpre : hasPrefixB "title:".data (("title:".data ++ v) ++ ['\n']) = true := by
      rw [show ((("title:".data ++ v) ++ ['\n']) : Str) =
        "title:".data ++ (v ++ ['\n']) from rfl]
      exact hasPrefixB_append _ _
    have hcs : colonSplit (("title:".data ++ v) ++ ['\n']) =
        some ("title".data, v ++ ['\n']) := by
      rw [show ((("title:".data ++ v) ++ ['\n']) : Str) =
        "title".data ++ ':' :: (v ++ ['\n']) from rfl]
      exact colonSplit_append _ (by decide)
    rw [peek_eq, takeLine_no_nl rest hlnl]
    dsimp only
    rw [if_neg (by rw [hws]; exact Bool.false_ne_true), if_pos hpre]
    simp only [hcs]
    rw [trim_allspace hsp]
    rfl

/-- Witness for C9: the three peek behaviours at concrete streams. -/
theorem c9_title_peek_witness :
    getTiddlerFileTile "title: Foo\nx: y\n\n".data = .ok "Foo".data ∧
    getTiddlerFileTile "a: b\n\ntitle: X\n".data = .error "title not found".data ∧
    getTiddlerFileTile "title:   \nx: y\n\n".data = .error [] := by
  refine ⟨?_, ?_, ?_⟩
  · exact c9_title_peek.1 "Foo".data "x: y\n\n".data (by decide) (by decide)
      (by decide) (by decide)
  · exact c9_title_peek.2.1 "a: b\n\ntitle: X\n".data (by decide)
  · exact c9_title_peek.2.2 "   ".data "x: y\n\n".data (by decide) (by decide)

/-- Claim C4, counterexample: a string-valued record lacking `revision`
(line-)encodes and decodes to a record that differs on the `revision`
field — the decoder injects `revision = "0"` — so the round trip is not
field-for-field equality, and the difference is not a `tags`
representation difference. -/
theorem c4_decode_gains_revision :
    tfWrite [(titleKey, TValue.str "A".data)] = some "title: A\n\n".data ∧
    tfRead "title: A\n\n".data =
      some [(titleKey, TValue.str "A".data), (revisionKey, TValue.str "0".data)] ∧
    alookup revisionKey [(titleKey, TValue.str "A".data),
      (revisionKey, TValue.str "0".data)] ≠
      alookup revisionKey [(titleKey, TValue.str "A".data)] := by
  refine ⟨by decide, by decide, by decide⟩

/-- Claim C4, amended: for every record with pairwise-distinct keys whose
values are strings, where no key is `fields`, every non-`text` key is
colon- and newline-free, every non-`text` value is newline-free and stable
under whitespace trimming, a `revision` binding is present, and any `text`
value is non-empty, encoding with `TiddlerFile.Write` and decoding with
`TiddlerFile.Read` yields a record extensionally equal to the original on
every field.  (The claim's `tags` array-vs-string allowance is vacuous
here: `Write` panics on non-string values, so only string `tags` encode at
all.) -/
theorem c4_line_roundtrip (t : Tiddler) (h : GoodTid t) :
    ∃ out t', tfWrite t = some out ∧ tfRead out = some t' ∧
      ∀ k, alookup k t' = alookup k t :=
  roundtrip_core t h

/-- Witness for the amended C4 at a concrete three-field record. -/
theorem c4_line_roundtrip_witness :
    GoodTid [(titleKey, TValue.str "A".data), (revisionKey, TValue.str "7".data),
      (textKey, TValue.str "hi".data)] ∧
    (∃ out t', tfWrite [(titleKey, TValue.str "A".data),
        (revisionKey, TValue.str "7".data), (textKey, TValue.str "hi".data)] =
        some out ∧
      tfRead out = some t' ∧
      ∀ k, alookup k t' = alookup k [(titleKey, TValue.str "A".data),
        (revisionKey, TValue.str "7".data), (textKey, TValue.str "hi".data)]) :=
  ⟨by decide, c4_line_roundtrip _ (by decide)⟩

/-- Witness for C10 at concrete streams with and without a `revision`
header. -/
theorem c10_revision_default_witness :
    (alookup revisionKey [(titleKey, TValue.str "A".data),
      (revisionKey, TValue.str "0".data)]).isSome = true ∧
    tfRead "title: A\n\n".data =
      some (mapSet [(titleKey, TValue.str "A".data)] revisionKey (.str "0".data)) ∧
    tfRead "revision: 3\n\n".data = some [(revisionKey, TValue.str "3".data)] := by
  refine ⟨?_, ?_, ?_⟩
  · exact c10_revision_default.1 "title: A\n\n".data _ (by decide)
  · exact (c10_revision_default.2.1 "title: A\n\n".data
      [(titleKey, TValue.str "A".data)] (by decide) (by decide)).1
  · exact c10_revision_default.2.2 "revision: 3\n\n".data
      [(revisionKey, TValue.str "3".data)] (TValue.str "3".data)
      (by decide) (by decide)

end Tiddlyverse
